import Mathlib

/-!
Verification of the MentorLink certificate generator (src/main.py).

The program state lives in two text files: a codes file (one outstanding
4-digit code per line) and an append-only log file.  Text is modelled as
a list of characters; every Python helper of the source is translated to
an executable Lean function over that representation, and the Generate
Certificate button handler becomes a step function on the pair of file
contents.
-/

namespace CertApp

/-- Text is modelled as a list of characters, mirroring Python strings. -/
abbrev Str := List Char

/-- ASCII decimal digit test: the fragment of Python str.isdigit relevant
to 4-digit codes. -/
def isPyDigit (c : Char) : Bool := 48 ≤ c.toNat && c.toNat ≤ 57

/-- The ASCII whitespace characters removed by Python str.strip. -/
def isPySpace (c : Char) : Bool :=
  c == ' ' || c == '\t' || c == '\n' || c == '\r' || c == '\x0b' || c == '\x0c'

/-- Python str.isdigit: non-empty and all characters are digits. -/
def pyIsdigit (s : Str) : Bool := !s.isEmpty && s.all isPyDigit

/-- Leading-whitespace removal (Python str.lstrip). -/
def pyLstrip (s : Str) : Str := s.dropWhile isPySpace

/-- Trailing-whitespace removal (Python str.rstrip). -/
def pyRstrip (s : Str) : Str := (s.reverse.dropWhile isPySpace).reverse

/-- Python str.strip: remove whitespace at both ends. -/
def pyStrip (s : Str) : Str := pyLstrip (pyRstrip s)

/-- Split a character list at every occurrence of sep; Python
str.split with an explicit one-character separator.  The result is
always non-empty and the separators are consumed. -/
def splitOnChar (sep : Char) : Str → List Str
  | [] => [[]]
  | c :: cs =>
    if c = sep then [] :: splitOnChar sep cs
    else (c :: (splitOnChar sep cs).headD []) :: (splitOnChar sep cs).tail

/-- Fuel-indexed decimal rendering helper; the fuel makes the recursion
structural so that terms reduce inside the kernel. -/
def natToStrAux : Nat → Nat → Str
  | 0, _ => []
  | fuel + 1, n =>
    if n < 10 then [Nat.digitChar n]
    else natToStrAux fuel (n / 10) ++ [Nat.digitChar (n % 10)]

/-- Decimal rendering of a natural number: Python str(int) / f-string
interpolation of an int value. -/
def natToStr (n : Nat) : Str := natToStrAux (n + 1) n

/-- Numeric value of a decimal digit character. -/
def digitVal (c : Char) : Nat := c.toNat - 48

/-- Value of a decimal digit string: the fragment of Python int()
reached by the program (all parsed strings consist of digits only). -/
def parseNat (s : Str) : Nat := s.foldl (fun a c => 10 * a + digitVal c) 0

/-- A wall-clock timestamp as produced by datetime.now(). -/
structure Timestamp where
  year : Nat
  month : Nat
  day : Nat
  hour : Nat
  minute : Nat
  second : Nat
deriving DecidableEq

/-- Calendar ranges guaranteed for every datetime.now() value. -/
def Timestamp.valid (t : Timestamp) : Bool :=
  1000 ≤ t.year && t.year ≤ 9999 && 1 ≤ t.month && t.month ≤ 12 &&
  1 ≤ t.day && t.day ≤ 31 && t.hour ≤ 23 && t.minute ≤ 59 && t.second ≤ 59

/-- Zero padding to two places, as strftime does for m, d, H, M, S. -/
def pad2 (n : Nat) : Str := if n < 10 then '0' :: natToStr n else natToStr n

/-- strftime of the source's format string: year-month-day
hour:minute:second with two-digit zero padding of all fields but the
year (the year of a real clock already has four digits). -/
def fmtTimestamp (t : Timestamp) : Str :=
  natToStr t.year ++ '-' :: (pad2 t.month ++ '-' :: (pad2 t.day ++ ' ' ::
    (pad2 t.hour ++ ':' :: (pad2 t.minute ++ ':' :: pad2 t.second))))

/-- Exactly two decimal digits. -/
def twoDigits (s : Str) : Bool :=
  match s with
  | [a, b] => isPyDigit a && isPyDigit b
  | _ => false

/-- Exactly four decimal digits. -/
def fourDigits (s : Str) : Bool :=
  match s with
  | [a, b, c, d] => isPyDigit a && isPyDigit b && isPyDigit c && isPyDigit d
  | _ => false

/-- Shape check for the YYYY-MM-DD HH:MM:SS timestamp format. -/
def isTimestampFormat (s : Str) : Bool :=
  match splitOnChar ' ' s with
  | [date, time] =>
    (match splitOnChar '-' date with
     | [y, m, d] => fourDigits y && twoDigits m && twoDigits d
     | _ => false) &&
    (match splitOnChar ':' time with
     | [h, mi, se] => twoDigits h && twoDigits mi && twoDigits se
     | _ => false)
  | _ => false

/-- The log line written for one successful generation:
timestamp,code,name,roll_number terminated by a newline (source line 32). -/
def logLine (ts : Timestamp) (code : Nat) (name roll : Str) : Str :=
  fmtTimestamp ts ++ ',' :: (natToStr code ++ ',' :: (name ++ ',' :: (roll ++ ['\n'])))

/-- log_certificate_generation as a transformer of the content of the
log file, which is opened in append mode; the timestamp produced inside
the function by datetime.now() is passed as a parameter. -/
def log_certificate_generation (ts : Timestamp) (code : Nat) (name roll : Str)
    (old : Str) : Str :=
  old ++ logLine ts code name roll

/-- One displayed row of the View Logs table; the fields are the dict
entries Timestamp, Code, Name, Roll Number of the source. -/
structure LogRecord where
  timestamp : Str
  code : Str
  name : Str
  roll : Str
deriving DecidableEq

/-- One line of the View Logs loop: the line is kept exactly when its
stripped form has four comma-separated fields (source lines 301-310). -/
def parseLogLine (line : Str) : Option LogRecord :=
  match splitOnChar ',' (pyStrip line) with
  | [a, b, c, d] => some ⟨a, b, c, d⟩
  | _ => none

/-- The body of the View Logs accumulation loop. -/
def viewStep (acc : List LogRecord) (line : Str) : List LogRecord :=
  match splitOnChar ',' (pyStrip line) with
  | [a, b, c, d] => acc ++ [⟨a, b, c, d⟩]
  | _ => acc

/-- The View Logs table built from the content of the log file
(readlines, then the per-line loop). -/
def viewLogs (content : Str) : List LogRecord :=
  (splitOnChar '\n' content).foldl viewStep []

/-- A log file produced only by append operations: empty or terminated
by a newline. -/
def GoodLog (l : Str) : Prop := l = [] ∨ ∃ l1, l = l1 ++ ['\n']

/-- load_codes: parse every non-blank line of the codes file
(source lines 14-18). -/
def load_codes (content : Str) : List Nat :=
  (splitOnChar '\n' content).filterMap (fun line =>
    if pyStrip line = [] then none else some (parseNat (pyStrip line)))

/-- update_codes: rewrite the codes file from scratch, one code per
line (source lines 23-27). -/
def update_codes : List Nat → Str
  | [] => []
  | c :: cs => natToStr c ++ '\n' :: update_codes cs

/-- The three text inputs of the Generate Certificate form. -/
structure Submission where
  codeInput : Str
  name : Str
  roll : Str
deriving DecidableEq

/-- The possible results of one press of the Generate Certificate
button. -/
inductive Outcome where
  | formatError
  | membershipError
  | identityError
  | success
deriving DecidableEq

/-- The st.error / st.success message shown for each outcome. -/
def outcomeMessage : Outcome → Str
  | Outcome.formatError => ("Please enter a valid 4-digit code.").toList
  | Outcome.membershipError =>
      ("Invalid or already used code. You are not eligible for a certificate.").toList
  | Outcome.identityError => ("Please enter both your name and roll number.").toList
  | Outcome.success => ("Your certificate has been generated!").toList

/-- The durable state of the application: the contents of the codes
file and of the log file. -/
structure FileState where
  codesFile : Str
  logFile : Str
deriving DecidableEq

/-- The positive form of the code-format check of source line 52. -/
def validFormat (s : Str) : Bool := !s.isEmpty && pyIsdigit s && s.length == 4

/-- One press of the Generate Certificate button (source lines 44-64):
reload the codes from the file, run the format, membership and identity
checks in this order, and on success rewrite the codes file without the
consumed code and append one log line. -/
def stepFiles (s : FileState) (ts : Timestamp) (sub : Submission) :
    Outcome × FileState :=
  let valid_codes := load_codes s.codesFile
  if sub.codeInput.isEmpty || !pyIsdigit sub.codeInput || sub.codeInput.length != 4 then
    (Outcome.formatError, s)
  else
    let code_val := parseNat sub.codeInput
    if code_val ∉ valid_codes then (Outcome.membershipError, s)
    else if sub.name.isEmpty || sub.roll.isEmpty then (Outcome.identityError, s)
    else
      (Outcome.success,
       ⟨update_codes (valid_codes.erase code_val),
        log_certificate_generation ts code_val sub.name sub.roll s.logFile⟩)

/-- Run a sequence of button presses. -/
def runSt (s : FileState) : List (Timestamp × Submission) → FileState
  | [] => s
  | (ts, sub) :: tr => runSt (stepFiles s ts sub).2 tr

/-- Number of successful redemptions of the code value v along a
sequence of button presses. -/
def countRed (v : Nat) (s : FileState) : List (Timestamp × Submission) → Nat
  | [] => 0
  | (ts, sub) :: tr =>
    (if (stepFiles s ts sub).1 = Outcome.success ∧ parseNat sub.codeInput = v
     then 1 else 0) + countRed v (stepFiles s ts sub).2 tr

/-- What happens to one image slot of the certificate. -/
inductive AssetOutcome where
  | imageDrawn
  | textTitleDrawn
  | skipped
  | drawFailed
deriving DecidableEq

/-- The hardcoded header image path of source line 75. -/
def header_img_path : Str := ("header.png").toList

/-- The hardcoded signature image paths of source lines 234-236. -/
def signature1_path : Str := ("divyansh_sign.jpg").toList

def signature2_path : Str := ("chaitanya_sign.png").toList

def signature3_path : Str := ("Sushant_Sign.png").toList

/-- Header block of the renderer (source lines 82-98).  The guard is
Python truthiness of the path string; when the branch is taken,
c.drawImage loads the file at that path, and reportlab raises an
IOError if no such file can be opened, modelled as drawFailed. -/
def headerRender (path : Str) (fileIsPresent : Bool) : AssetOutcome :=
  if !path.isEmpty then
    (if fileIsPresent then AssetOutcome.imageDrawn else AssetOutcome.drawFailed)
  else AssetOutcome.textTitleDrawn

/-- One signature slot of the footer (source lines 238-264): same
truthiness guard, but with no else branch, so an empty path skips the
slot. -/
def signatureRender (path : Str) (fileIsPresent : Bool) : AssetOutcome :=
  if !path.isEmpty then
    (if fileIsPresent then AssetOutcome.imageDrawn else AssetOutcome.drawFailed)
  else AssetOutcome.skipped

/-- One emitted c.drawString call of draw_inline_text, together with
the font set just before it. -/
structure DrawCall where
  x : ℚ
  y : ℚ
  text : Str
  font : Str × ℚ
deriving DecidableEq

/-- Loop body of draw_inline_text (source lines 105-113).  The state is
(current_x, current_y, emitted calls); w is the external
c.stringWidth metric. -/
def drawStep (w : Str → Str × ℚ → ℚ) (start_x max_x line_height : ℚ)
    (st : ℚ × ℚ × List DrawCall) (seg : Str × (Str × ℚ)) : ℚ × ℚ × List DrawCall :=
  let text_width := w seg.1 seg.2
  if st.1 + text_width > max_x then
    (start_x + text_width, st.2.1 - line_height,
     st.2.2 ++ [⟨start_x, st.2.1 - line_height, seg.1, seg.2⟩])
  else
    (st.1 + text_width, st.2.1, st.2.2 ++ [⟨st.1, st.2.1, seg.1, seg.2⟩])

/-- draw_inline_text (source lines 101-114): fold the loop body over
the segments starting from (start_x, start_y) and return the emitted
draw calls together with the returned current_y. -/
def draw_inline_text (w : Str → Str × ℚ → ℚ) (start_x start_y : ℚ)
    (segments : List (Str × (Str × ℚ))) (max_x line_height : ℚ) :
    List DrawCall × ℚ :=
  let r := segments.foldl (drawStep w start_x max_x line_height) (start_x, start_y, [])
  (r.2.2, r.2.1)

/-- The wrapping rule as the specification words it: advance a cursor
by each segment's rendered width; when the cursor plus the next width
would exceed max_x, draw that segment at start_x one line_height lower
instead; return the y of the last line. -/
def drawInlineSpec (w : Str → Str × ℚ → ℚ) (start_x max_x line_height : ℚ) :
    ℚ → ℚ → List (Str × (Str × ℚ)) → List DrawCall × ℚ
  | _, cy, [] => ([], cy)
  | cx, cy, seg :: rest =>
    let tw := w seg.1 seg.2
    if cx + tw > max_x then
      let r := drawInlineSpec w start_x max_x line_height (start_x + tw) (cy - line_height) rest
      (⟨start_x, cy - line_height, seg.1, seg.2⟩ :: r.1, r.2)
    else
      let r := drawInlineSpec w start_x max_x line_height (cx + tw) cy rest
      (⟨cx, cy, seg.1, seg.2⟩ :: r.1, r.2)

/-- Default draw call used with getLastD. -/
def dcDefault : DrawCall := ⟨0, 0, [], ([], 0)⟩

/-- Concrete values used by the closed witness theorems. -/
def tsEx : Timestamp := ⟨2025, 6, 1, 12, 0, 0⟩

def subEx : Submission :=
  ⟨("1234").toList, ("Asha Rao").toList, ("2021CS01").toList⟩

def csEx : List Nat := [1234, 5678]

def wEx (t : Str) (f : Str × ℚ) : ℚ := (t.length : ℚ) * f.2

def segsEx : List (Str × (Str × ℚ)) :=
  [(("served as a ").toList, (("Helvetica").toList, 12)),
   (("Mentor").toList, (("Helvetica-Bold").toList, 12))]

def lineEx : Str := ("2025-06-01 12:00:00,1234,Asha Rao,2021CS01").toList

def recEx : LogRecord :=
  ⟨("2025-06-01 12:00:00").toList, ("1234").toList,
   ("Asha Rao").toList, ("2021CS01").toList⟩

def subBadEx : Submission :=
  ⟨("12a4").toList, ("Asha Rao").toList, ("2021CS01").toList⟩

def subNoNameEx : Submission :=
  ⟨("1234").toList, [], ("2021CS01").toList⟩

def subAbsentEx : Submission :=
  ⟨("9999").toList, ("Asha Rao").toList, ("2021CS01").toList⟩

def nameCommaEx : Str := ("Rao, Asha").toList

end CertApp

namespace CertApp

/-! ### Digits and decimal strings -/

theorem digitChar_isPyDigit {k : Nat} (h : k < 10) :
    isPyDigit (Nat.digitChar k) = true := by
  interval_cases k <;> decide

theorem digitVal_digitChar {k : Nat} (h : k < 10) :
    digitVal (Nat.digitChar k) = k := by
  interval_cases k <;> decide

theorem natToStrAux_congr : ∀ f g n, n < f → n < g →
    natToStrAux f n = natToStrAux g n := by
  intro f
  induction f with
  | zero => intro g n h; omega
  | succ f ih =>
    intro g n hf hg
    cases g with
    | zero => omega
    | succ g =>
      simp only [natToStrAux]
      by_cases h10 : n < 10
      · simp [h10]
      · simp only [if_neg h10]
        have hd : n / 10 < n := Nat.div_lt_self (by omega) (by omega)
        rw [ih g (n / 10) (by omega) (by omega)]

theorem natToStr_eq (n : Nat) :
    natToStr n = if n < 10 then [Nat.digitChar n]
      else natToStr (n / 10) ++ [Nat.digitChar (n % 10)] := by
  show natToStrAux (n + 1) n = _
  simp only [natToStrAux]
  by_cases h : n < 10
  · simp [h]
  · simp only [if_neg h]
    have hd : n / 10 < n := Nat.div_lt_self (by omega) (by omega)
    rw [natToStrAux_congr n (n / 10 + 1) (n / 10) (by omega) (by omega)]
    rfl

theorem natToStr_ne_nil (n : Nat) : natToStr n ≠ [] := by
  rw [natToStr_eq]
  split <;> simp

theorem natToStr_all_digit (n : Nat) : ∀ c ∈ natToStr n, isPyDigit c = true := by
  induction n using Nat.strong_induction_on with
  | _ n ih =>
    rw [natToStr_eq]
    by_cases h : n < 10
    · simp only [if_pos h, List.mem_singleton]
      rintro c rfl
      exact digitChar_isPyDigit h
    · simp only [if_neg h, List.mem_append, List.mem_singleton]
      rintro c (hc | rfl)
      · exact ih (n / 10) (Nat.div_lt_self (by omega) (by omega)) c hc
      · exact digitChar_isPyDigit (Nat.mod_lt n (by omega))

theorem not_mem_natToStr {x : Char} (hx : isPyDigit x = false) (n : Nat) :
    x ∉ natToStr n := by
  intro hm
  have := natToStr_all_digit n x hm
  rw [hx] at this
  exact Bool.noConfusion this

theorem parseNat_append (a : Str) (c : Char) :
    parseNat (a ++ [c]) = 10 * parseNat a + digitVal c := by
  simp [parseNat, List.foldl_append]

theorem parseNat_natToStr (n : Nat) : parseNat (natToStr n) = n := by
  induction n using Nat.strong_induction_on with
  | _ n ih =>
    rw [natToStr_eq]
    by_cases h : n < 10
    · simp only [if_pos h]
      show parseNat [Nat.digitChar n] = n
      simp [parseNat, List.foldl, digitVal_digitChar h]
    · simp only [if_neg h]
      rw [parseNat_append, ih (n / 10) (Nat.div_lt_self (by omega) (by omega)),
        digitVal_digitChar (Nat.mod_lt n (by omega))]
      omega

theorem natToStr_length1 {n : Nat} (h : n < 10) : (natToStr n).length = 1 := by
  rw [natToStr_eq, if_pos h]
  rfl

theorem natToStr_length2 {n : Nat} (h1 : 10 ≤ n) (h2 : n < 100) :
    (natToStr n).length = 2 := by
  rw [natToStr_eq, if_neg (by omega)]
  rw [List.length_append, natToStr_length1 (by omega)]
  rfl

theorem natToStr_length3 {n : Nat} (h1 : 100 ≤ n) (h2 : n < 1000) :
    (natToStr n).length = 3 := by
  rw [natToStr_eq, if_neg (by omega)]
  rw [List.length_append, natToStr_length2 (by omega) (by omega)]
  rfl

theorem natToStr_length4 {n : Nat} (h1 : 1000 ≤ n) (h2 : n < 10000) :
    (natToStr n).length = 4 := by
  rw [natToStr_eq, if_neg (by omega)]
  rw [List.length_append, natToStr_length3 (by omega) (by omega)]
  rfl

theorem exists_two (s : Str) (h : s.length = 2) : ∃ a b, s = [a, b] := by
  cases s with
  | nil => simp at h
  | cons a s1 =>
    cases s1 with
    | nil => simp at h
    | cons b s2 =>
      cases s2 with
      | nil => exact ⟨a, b, rfl⟩
      | cons c s3 => simp at h

theorem exists_four (s : Str) (h : s.length = 4) : ∃ a b c d, s = [a, b, c, d] := by
  cases s with
  | nil => simp at h
  | cons a s1 =>
    cases s1 with
    | nil => simp at h
    | cons b s2 =>
      cases s2 with
      | nil => simp at h
      | cons c s3 =>
        cases s3 with
        | nil => simp at h
        | cons d s4 =>
          cases s4 with
          | nil => exact ⟨a, b, c, d, rfl⟩
          | cons e s5 => simp at h

theorem twoDigits_of (s : Str) (hlen : s.length = 2)
    (hd : ∀ c ∈ s, isPyDigit c = true) : twoDigits s = true := by
  obtain ⟨a, b, rfl⟩ := exists_two s hlen
  simp only [twoDigits, Bool.and_eq_true]
  exact ⟨hd a (by simp), hd b (by simp)⟩

theorem fourDigits_of (s : Str) (hlen : s.length = 4)
    (hd : ∀ c ∈ s, isPyDigit c = true) : fourDigits s = true := by
  obtain ⟨a, b, c, d, rfl⟩ := exists_four s hlen
  simp only [fourDigits, Bool.and_eq_true]
  exact ⟨⟨⟨hd a (by simp), hd b (by simp)⟩, hd c (by simp)⟩, hd d (by simp)⟩

theorem pad2_all_digit (n : Nat) : ∀ c ∈ pad2 n, isPyDigit c = true := by
  unfold pad2
  split
  · intro c hc
    rcases List.mem_cons.1 hc with rfl | hc
    · decide
    · exact natToStr_all_digit n c hc
  · exact natToStr_all_digit n

theorem not_mem_pad2 {x : Char} (hx : isPyDigit x = false) (n : Nat) :
    x ∉ pad2 n := by
  intro hm
  have := pad2_all_digit n x hm
  rw [hx] at this
  exact Bool.noConfusion this

theorem twoDigits_pad2 {n : Nat} (h : n < 100) : twoDigits (pad2 n) = true := by
  apply twoDigits_of _ _ (pad2_all_digit n)
  unfold pad2
  split
  · simp only [List.length_cons]
    rw [natToStr_length1 (by omega)]
  · rw [natToStr_length2 (by omega) h]

theorem fourDigits_natToStr {n : Nat} (h1 : 1000 ≤ n) (h2 : n ≤ 9999) :
    fourDigits (natToStr n) = true :=
  fourDigits_of _ (natToStr_length4 h1 (by omega)) (natToStr_all_digit n)

end CertApp

namespace CertApp

/-! ### Stripping -/

theorem pyLstrip_cons_of {c : Char} (h : isPySpace c = false) (l : Str) :
    pyLstrip (c :: l) = c :: l := by
  simp [pyLstrip, List.dropWhile_cons, h]

theorem pyRstrip_append_cons {c : Char} (h : isPySpace c = false) (a b : Str) :
    pyRstrip (a ++ c :: b) = a ++ c :: pyRstrip b := by
  unfold pyRstrip
  rw [List.reverse_append, List.reverse_cons, List.append_assoc,
    List.singleton_append, List.dropWhile_append]
  split
  · rename_i he
    rw [List.isEmpty_iff] at he
    rw [he]
    simp [List.dropWhile_cons, h]
  · rename_i he
    rw [List.reverse_append, List.reverse_cons, List.reverse_reverse]
    simp

theorem pyRstrip_cons_of {c : Char} (h : isPySpace c = false) (b : Str) :
    pyRstrip (c :: b) = c :: pyRstrip b := by
  have := pyRstrip_append_cons h [] b
  simpa using this

theorem pyRstrip_decomp (l : Str) :
    ∃ t, l = pyRstrip l ++ t ∧ ∀ x ∈ t, isPySpace x = true := by
  refine ⟨(l.reverse.takeWhile isPySpace).reverse, ?_, ?_⟩
  · have h1 := List.takeWhile_append_dropWhile isPySpace l.reverse
    conv_lhs => rw [← List.reverse_reverse l, ← h1]
    rw [List.reverse_append]
    rfl
  · intro x hx
    rw [List.mem_reverse] at hx
    exact List.mem_takeWhile_imp hx

theorem count_pyRstrip {c : Char} (h : isPySpace c = false) (l : Str) :
    (pyRstrip l).count c = l.count c := by
  obtain ⟨t, hl, ht⟩ := pyRstrip_decomp l
  conv_rhs => rw [hl]
  rw [List.count_append]
  have h0 : t.count c = 0 := by
    apply List.count_eq_zero.2
    intro hm
    rw [ht c hm] at h
    exact Bool.noConfusion h
  omega

theorem mem_pyRstrip {x : Char} {l : Str} (h : x ∈ pyRstrip l) : x ∈ l := by
  unfold pyRstrip at h
  rw [List.mem_reverse] at h
  have h2 := (List.dropWhile_sublist isPySpace).subset h
  rw [List.mem_reverse] at h2
  exact h2

theorem not_mem_pyRstrip {x : Char} {l : Str} (h : x ∉ l) : x ∉ pyRstrip l :=
  fun hm => h (mem_pyRstrip hm)

theorem pyStrip_of_all_nonspace (l : Str) (h : ∀ x ∈ l, isPySpace x = false) :
    pyStrip l = l := by
  have h1 : pyRstrip l = l := by
    cases hr : l.reverse with
    | nil =>
      have : l = [] := by
        rw [← List.reverse_reverse l, hr]
        rfl
      rw [this]
      rfl
    | cons c t =>
      have hc : isPySpace c = false := by
        apply h
        rw [← List.mem_reverse, hr]
        simp
      unfold pyRstrip
      rw [hr, List.dropWhile_cons, hc]
      simp only [Bool.false_eq_true, if_false]
      rw [← hr, List.reverse_reverse]
  have h2 : pyLstrip l = l := by
    cases l with
    | nil => rfl
    | cons c t => exact pyLstrip_cons_of (h c (by simp)) t
  rw [pyStrip, h1, h2]

/-! ### Splitting -/

theorem splitOnChar_nil (sep : Char) : splitOnChar sep [] = [[]] := rfl

theorem splitOnChar_cons_sep (sep : Char) (l : Str) :
    splitOnChar sep (sep :: l) = [] :: splitOnChar sep l := by
  simp [splitOnChar]

theorem splitOnChar_cons_ne {sep c : Char} (h : c ≠ sep) (l : Str) :
    splitOnChar sep (c :: l) =
      (c :: (splitOnChar sep l).headD []) :: (splitOnChar sep l).tail := by
  simp [splitOnChar, h]

theorem splitOnChar_ne_nil (sep : Char) (l : Str) : splitOnChar sep l ≠ [] := by
  cases l with
  | nil => simp [splitOnChar]
  | cons c cs =>
    by_cases h : c = sep
    · subst h
      rw [splitOnChar_cons_sep]
      simp
    · rw [splitOnChar_cons_ne h]
      simp

theorem splitOnChar_of_not_mem {sep : Char} : ∀ {l : Str}, sep ∉ l →
    splitOnChar sep l = [l] := by
  intro l
  induction l with
  | nil => intro; rfl
  | cons c cs ih =>
    intro h
    have hc : c ≠ sep := fun e => h (by simp [e])
    have hcs : sep ∉ cs := fun m => h (by simp [m])
    rw [splitOnChar_cons_ne hc, ih hcs]
    rfl

theorem getLastD_irrel {α : Type} {l : List α} (h : l ≠ []) (d e : α) :
    l.getLastD d = l.getLastD e := by
  cases l with
  | nil => exact absurd rfl h
  | cons a t => rw [List.getLastD_cons, List.getLastD_cons]

theorem splitOnChar_append_cons (sep : Char) : ∀ (a b : Str),
    splitOnChar sep (a ++ sep :: b) =
      (splitOnChar sep a).dropLast ++
        (splitOnChar sep a).getLastD [] :: splitOnChar sep b := by
  intro a
  induction a with
  | nil =>
    intro b
    rw [List.nil_append, splitOnChar_cons_sep, splitOnChar_nil]
    rfl
  | cons c a ih =>
    intro b
    by_cases hc : c = sep
    · rw [List.cons_append, hc, splitOnChar_cons_sep, ih, splitOnChar_cons_sep]
      cases hsa : splitOnChar sep a with
      | nil => exact absurd hsa (splitOnChar_ne_nil _ _)
      | cons y ys =>
        rw [List.dropLast_cons₂]
        simp only [List.getLastD_cons, List.cons_append]
    · rw [List.cons_append, splitOnChar_cons_ne hc, ih, splitOnChar_cons_ne hc]
      cases hsa : splitOnChar sep a with
      | nil => exact absurd hsa (splitOnChar_ne_nil _ _)
      | cons y ys =>
        cases ys with
        | nil =>
          simp [List.getLastD_cons]
        | cons z zs =>
          rw [List.getLastD_cons, List.dropLast_cons₂]
          simp only [List.cons_append, List.headD_cons, List.tail_cons,
            List.dropLast_cons₂, List.getLastD_cons]

theorem length_splitOnChar (sep : Char) : ∀ l : Str,
    (splitOnChar sep l).length = l.count sep + 1 := by
  intro l
  induction l with
  | nil => rfl
  | cons c cs ih =>
    by_cases hc : c = sep
    · subst hc
      rw [splitOnChar_cons_sep, List.length_cons, ih, List.count_cons_self]
    · rw [splitOnChar_cons_ne hc, List.length_cons, List.length_tail,
        List.count_cons_of_ne (fun e => hc e.symm), ih]
      have hpos : 0 < (splitOnChar sep cs).length :=
        List.length_pos.2 (splitOnChar_ne_nil _ _)
      omega

end CertApp

namespace CertApp

/-! ### Derived splitting facts, codes-file round trip -/

theorem splitOnChar_append_cons_of_not_mem {sep : Char} {a : Str} (h : sep ∉ a)
    (b : Str) : splitOnChar sep (a ++ sep :: b) = a :: splitOnChar sep b := by
  rw [splitOnChar_append_cons, splitOnChar_of_not_mem h]
  rfl

theorem digit_not_space {c : Char} (h : isPyDigit c = true) : isPySpace c = false := by
  cases hs : isPySpace c
  · rfl
  · exfalso
    unfold isPySpace at hs
    simp only [Bool.or_eq_true, beq_iff_eq, or_assoc] at hs
    rcases hs with rfl | rfl | rfl | rfl | rfl | rfl <;> exact absurd h (by decide)

theorem pyStrip_natToStr (n : Nat) : pyStrip (natToStr n) = natToStr n :=
  pyStrip_of_all_nonspace _ (fun x hx => digit_not_space (natToStr_all_digit n x hx))

theorem load_update (cs : List Nat) : load_codes (update_codes cs) = cs := by
  induction cs with
  | nil => rfl
  | cons n r ih =>
    show load_codes (natToStr n ++ '\n' :: update_codes r) = n :: r
    unfold load_codes
    rw [splitOnChar_append_cons_of_not_mem (not_mem_natToStr (by decide) n),
      List.filterMap_cons]
    simp only [pyStrip_natToStr, if_neg (natToStr_ne_nil n), parseNat_natToStr]
    exact congrArg (List.cons n) ih

/-! ### The timestamp format -/

theorem fmtTimestamp_chars (t : Timestamp) :
    ∀ x ∈ fmtTimestamp t, isPyDigit x = true ∨ x = '-' ∨ x = ' ' ∨ x = ':' := by
  intro x hx
  unfold fmtTimestamp at hx
  simp only [List.mem_append, List.mem_cons] at hx
  rcases hx with hx | rfl | hx | rfl | hx | rfl | hx | rfl | hx | rfl | hx
  · exact Or.inl (natToStr_all_digit _ x hx)
  · exact Or.inr (Or.inl rfl)
  · exact Or.inl (pad2_all_digit _ x hx)
  · exact Or.inr (Or.inl rfl)
  · exact Or.inl (pad2_all_digit _ x hx)
  · exact Or.inr (Or.inr (Or.inl rfl))
  · exact Or.inl (pad2_all_digit _ x hx)
  · exact Or.inr (Or.inr (Or.inr rfl))
  · exact Or.inl (pad2_all_digit _ x hx)
  · exact Or.inr (Or.inr (Or.inr rfl))
  · exact Or.inl (pad2_all_digit _ x hx)

theorem not_mem_fmtTimestamp {x : Char} (h1 : isPyDigit x = false)
    (h2 : x ≠ '-') (h3 : x ≠ ' ') (h4 : x ≠ ':') (t : Timestamp) :
    x ∉ fmtTimestamp t := by
  intro hm
  rcases fmtTimestamp_chars t x hm with h | h | h | h
  · rw [h1] at h
    exact Bool.noConfusion h
  · exact h2 h
  · exact h3 h
  · exact h4 h

theorem fmtTimestamp_head (t : Timestamp) :
    ∃ d rest, fmtTimestamp t = d :: rest ∧ isPyDigit d = true := by
  unfold fmtTimestamp
  cases hy : natToStr t.year with
  | nil => exact absurd hy (natToStr_ne_nil _)
  | cons d r =>
    refine ⟨d, _, rfl, ?_⟩
    exact natToStr_all_digit t.year d (by rw [hy]; simp)

theorem space_not_mem_date (t : Timestamp) :
    ' ' ∉ natToStr t.year ++ '-' :: (pad2 t.month ++ '-' :: pad2 t.day) := by
  intro hm
  simp only [List.mem_append, List.mem_cons] at hm
  rcases hm with h | h | h | h | h
  · exact absurd (natToStr_all_digit _ _ h) (by decide)
  · exact absurd h (by decide)
  · exact absurd (pad2_all_digit _ _ h) (by decide)
  · exact absurd h (by decide)
  · exact absurd (pad2_all_digit _ _ h) (by decide)

theorem space_not_mem_time (t : Timestamp) :
    ' ' ∉ pad2 t.hour ++ ':' :: (pad2 t.minute ++ ':' :: pad2 t.second) := by
  intro hm
  simp only [List.mem_append, List.mem_cons] at hm
  rcases hm with h | h | h | h | h
  · exact absurd (pad2_all_digit _ _ h) (by decide)
  · exact absurd h (by decide)
  · exact absurd (pad2_all_digit _ _ h) (by decide)
  · exact absurd h (by decide)
  · exact absurd (pad2_all_digit _ _ h) (by decide)

theorem isTimestampFormat_fmt {t : Timestamp} (h : t.valid = true) :
    isTimestampFormat (fmtTimestamp t) = true := by
  unfold Timestamp.valid at h
  simp only [Bool.and_eq_true, decide_eq_true_eq] at h
  obtain ⟨⟨⟨⟨⟨⟨⟨⟨hy1, hy2⟩, hm1⟩, hm2⟩, hd1⟩, hd2⟩, hh⟩, hmi⟩, hs⟩ := h
  have hform : fmtTimestamp t =
      (natToStr t.year ++ '-' :: (pad2 t.month ++ '-' :: pad2 t.day)) ++
        ' ' :: (pad2 t.hour ++ ':' :: (pad2 t.minute ++ ':' :: pad2 t.second)) := by
    unfold fmtTimestamp
    simp [List.append_assoc]
  have hsp1 : splitOnChar ' ' (fmtTimestamp t) =
      [natToStr t.year ++ '-' :: (pad2 t.month ++ '-' :: pad2 t.day),
       pad2 t.hour ++ ':' :: (pad2 t.minute ++ ':' :: pad2 t.second)] := by
    rw [hform, splitOnChar_append_cons_of_not_mem (space_not_mem_date t),
      splitOnChar_of_not_mem (space_not_mem_time t)]
  have hspD : splitOnChar '-'
      (natToStr t.year ++ '-' :: (pad2 t.month ++ '-' :: pad2 t.day)) =
      [natToStr t.year, pad2 t.month, pad2 t.day] := by
    rw [splitOnChar_append_cons_of_not_mem (not_mem_natToStr (by decide) _),
      splitOnChar_append_cons_of_not_mem (not_mem_pad2 (by decide) _),
      splitOnChar_of_not_mem (not_mem_pad2 (by decide) _)]
  have hspT : splitOnChar ':'
      (pad2 t.hour ++ ':' :: (pad2 t.minute ++ ':' :: pad2 t.second)) =
      [pad2 t.hour, pad2 t.minute, pad2 t.second] := by
    rw [splitOnChar_append_cons_of_not_mem (not_mem_pad2 (by decide) _),
      splitOnChar_append_cons_of_not_mem (not_mem_pad2 (by decide) _),
      splitOnChar_of_not_mem (not_mem_pad2 (by decide) _)]
  unfold isTimestampFormat
  rw [hsp1]
  simp only [hspD, hspT, Bool.and_eq_true]
  refine ⟨⟨⟨fourDigits_natToStr hy1 hy2, twoDigits_pad2 (by omega)⟩,
    twoDigits_pad2 (by omega)⟩,
    ⟨⟨twoDigits_pad2 (by omega), twoDigits_pad2 (by omega)⟩, twoDigits_pad2 (by omega)⟩⟩

/-! ### The log line and the View Logs read path -/

theorem getLast?_append_right {a b : Str} (h : b ≠ []) :
    (a ++ b).getLast? = b.getLast? := by
  rw [List.getLast?_eq_head?_reverse, List.getLast?_eq_head?_reverse,
    List.reverse_append]
  cases hb : b.reverse with
  | nil =>
    exfalso
    apply h
    rw [← List.reverse_reverse b, hb]
    rfl
  | cons x xs => rfl

theorem logLine_concat (ts : Timestamp) (c : Nat) (name roll : Str) :
    logLine ts c name roll =
      (fmtTimestamp ts ++ ',' :: (natToStr c ++ ',' :: (name ++ ',' :: roll))) ++
        ['\n'] := by
  unfold logLine
  simp [List.append_assoc]

theorem logLine_ne_nil (ts : Timestamp) (c : Nat) (name roll : Str) :
    logLine ts c name roll ≠ [] := by
  rw [logLine_concat]
  simp

theorem getLast?_logLine (ts : Timestamp) (c : Nat) (name roll : Str) :
    (logLine ts c name roll).getLast? = some '\n' := by
  rw [logLine_concat, List.getLast?_concat]

theorem count_newline_logLine {name roll : Str} (hn : '\n' ∉ name)
    (hr : '\n' ∉ roll) (ts : Timestamp) (c : Nat) :
    (logLine ts c name roll).count '\n' = 1 := by
  unfold logLine
  rw [List.count_append, List.count_cons_of_ne (by decide), List.count_append,
    List.count_cons_of_ne (by decide), List.count_append,
    List.count_cons_of_ne (by decide), List.count_append]
  rw [List.count_eq_zero.2 (not_mem_fmtTimestamp (by decide) (by decide)
    (by decide) (by decide) ts)]
  rw [List.count_eq_zero.2 (not_mem_natToStr (by decide) c)]
  rw [List.count_eq_zero.2 hn, List.count_eq_zero.2 hr]
  rfl

theorem viewStep_eq (acc : List LogRecord) (line : Str) :
    viewStep acc line = acc ++ (parseLogLine line).toList := by
  unfold viewStep parseLogLine
  rcases hsp : splitOnChar ',' (pyStrip line) with
    _ | ⟨a, _ | ⟨b, _ | ⟨c, _ | ⟨d, _ | ⟨e, tail⟩⟩⟩⟩⟩ <;> simp

theorem foldl_viewStep (lines : List Str) : ∀ acc,
    lines.foldl viewStep acc = acc ++ lines.filterMap parseLogLine := by
  induction lines with
  | nil =>
    intro acc
    simp
  | cons l ls ih =>
    intro acc
    rw [List.foldl_cons, viewStep_eq, ih, List.filterMap_cons]
    cases hp : parseLogLine l <;> simp

theorem viewLogs_eq (content : Str) :
    viewLogs content = (splitOnChar '\n' content).filterMap parseLogLine := by
  unfold viewLogs
  rw [foldl_viewStep]
  simp

theorem parseLogLine_nil : parseLogLine [] = none := rfl

theorem viewLogs_append {lg : Str} (h : GoodLog lg) (X : Str) :
    viewLogs (lg ++ X) =
      viewLogs lg ++ (splitOnChar '\n' X).filterMap parseLogLine := by
  rcases h with rfl | ⟨l1, rfl⟩
  · rw [List.nil_append, viewLogs_eq]
    rfl
  · rw [viewLogs_eq, viewLogs_eq, List.append_assoc, List.singleton_append,
      splitOnChar_append_cons '\n' l1 X, splitOnChar_append_cons '\n' l1 []]
    rw [List.filterMap_append, List.filterMap_append, List.filterMap_cons,
      List.filterMap_cons]
    have hnil : List.filterMap parseLogLine (splitOnChar '\n' ([] : Str)) = [] := rfl
    rw [hnil]
    cases hg : parseLogLine ((splitOnChar '\n' l1).getLastD []) <;> simp

end CertApp

namespace CertApp

/-! ### The button handler -/

theorem isEmpty_false_of_ne {l : Str} (h : l ≠ []) : l.isEmpty = false := by
  cases l with
  | nil => exact absurd rfl h
  | cons a t => rfl

theorem stepCond_eq (s : Str) :
    (s.isEmpty || !pyIsdigit s || s.length != 4) = !validFormat s := by
  unfold validFormat pyIsdigit
  cases h1 : s.isEmpty <;> cases h2 : s.all isPyDigit <;>
    cases h3 : s.length == 4 <;> simp [bne, h1, h2, h3]

theorem stepFiles_formatError {sub : Submission}
    (h : validFormat sub.codeInput = false) (s : FileState) (ts : Timestamp) :
    stepFiles s ts sub = (Outcome.formatError, s) := by
  unfold stepFiles
  rw [stepCond_eq, h]
  rfl

theorem stepFiles_membershipError {sub : Submission}
    (hf : validFormat sub.codeInput = true) (s : FileState) (ts : Timestamp)
    (hm : parseNat sub.codeInput ∉ load_codes s.codesFile) :
    stepFiles s ts sub = (Outcome.membershipError, s) := by
  unfold stepFiles
  rw [stepCond_eq, hf]
  simp only [Bool.not_true, Bool.false_eq_true, if_false]
  rw [if_pos hm]

theorem stepFiles_identityError {sub : Submission}
    (hf : validFormat sub.codeInput = true) (s : FileState) (ts : Timestamp)
    (hm : parseNat sub.codeInput ∈ load_codes s.codesFile)
    (hn : sub.name = [] ∨ sub.roll = []) :
    stepFiles s ts sub = (Outcome.identityError, s) := by
  unfold stepFiles
  rw [stepCond_eq, hf]
  simp only [Bool.not_true, Bool.false_eq_true, if_false]
  rw [if_neg (not_not_intro hm)]
  have hcond : (sub.name.isEmpty || sub.roll.isEmpty) = true := by
    rcases hn with h | h <;> simp [h]
  rw [hcond]
  rfl

theorem stepFiles_success {sub : Submission}
    (hf : validFormat sub.codeInput = true) (s : FileState) (ts : Timestamp)
    (hm : parseNat sub.codeInput ∈ load_codes s.codesFile)
    (hn : sub.name ≠ []) (hr : sub.roll ≠ []) :
    stepFiles s ts sub = (Outcome.success,
      ⟨update_codes ((load_codes s.codesFile).erase (parseNat sub.codeInput)),
       s.logFile ++ logLine ts (parseNat sub.codeInput) sub.name sub.roll⟩) := by
  unfold stepFiles
  rw [stepCond_eq, hf]
  simp only [Bool.not_true, Bool.false_eq_true, if_false]
  rw [if_neg (not_not_intro hm)]
  have hcond : (sub.name.isEmpty || sub.roll.isEmpty) = false := by
    rw [isEmpty_false_of_ne hn, isEmpty_false_of_ne hr]
    rfl
  rw [hcond]
  rfl

theorem validFormat_false_of_not {s : Str} (h : ¬ validFormat s = true) :
    validFormat s = false := by
  cases h2 : validFormat s
  · rfl
  · exact absurd h2 h

theorem stepFiles_cases (s : FileState) (ts : Timestamp) (sub : Submission) :
    ((stepFiles s ts sub).1 ≠ Outcome.success ∧ (stepFiles s ts sub).2 = s) ∨
    (validFormat sub.codeInput = true ∧
     parseNat sub.codeInput ∈ load_codes s.codesFile ∧
     stepFiles s ts sub = (Outcome.success,
       ⟨update_codes ((load_codes s.codesFile).erase (parseNat sub.codeInput)),
        s.logFile ++ logLine ts (parseNat sub.codeInput) sub.name sub.roll⟩)) := by
  by_cases hf : validFormat sub.codeInput = true
  · by_cases hm : parseNat sub.codeInput ∈ load_codes s.codesFile
    · by_cases hn : sub.name = [] ∨ sub.roll = []
      · left
        rw [stepFiles_identityError hf s ts hm hn]
        exact ⟨by simp, rfl⟩
      · push_neg at hn
        right
        exact ⟨hf, hm, stepFiles_success hf s ts hm hn.1 hn.2⟩
    · left
      rw [stepFiles_membershipError hf s ts hm]
      exact ⟨by simp, rfl⟩
  · left
    rw [stepFiles_formatError (validFormat_false_of_not hf) s ts]
    exact ⟨by simp, rfl⟩

theorem load_step_not_mem {v : Nat} {s : FileState} (ts : Timestamp)
    (sub : Submission) (h : v ∉ load_codes s.codesFile) :
    v ∉ load_codes ((stepFiles s ts sub).2).codesFile := by
  rcases stepFiles_cases s ts sub with ⟨_, h2⟩ | ⟨_, _, h2⟩
  · rw [h2]
    exact h
  · rw [h2]
    show v ∉ load_codes (update_codes
      ((load_codes s.codesFile).erase (parseNat sub.codeInput)))
    rw [load_update]
    intro hm
    exact h (List.mem_of_mem_erase hm)

theorem runSt_not_mem {v : Nat} : ∀ (tr : List (Timestamp × Submission))
    (s : FileState), v ∉ load_codes s.codesFile →
    v ∉ load_codes (runSt s tr).codesFile := by
  intro tr
  induction tr with
  | nil =>
    intro s h
    exact h
  | cons p tr ih =>
    intro s h
    obtain ⟨ts, sub⟩ := p
    exact ih _ (load_step_not_mem ts sub h)

theorem countRed_cons (v : Nat) (s : FileState) (ts : Timestamp)
    (sub : Submission) (tr : List (Timestamp × Submission)) :
    countRed v s ((ts, sub) :: tr) =
      (if (stepFiles s ts sub).1 = Outcome.success ∧ parseNat sub.codeInput = v
       then 1 else 0) + countRed v (stepFiles s ts sub).2 tr := rfl

theorem countRed_le (v : Nat) : ∀ (tr : List (Timestamp × Submission))
    (cs : List Nat) (L : Str),
    countRed v ⟨update_codes cs, L⟩ tr ≤ cs.count v := by
  intro tr
  induction tr with
  | nil =>
    intro cs L
    exact Nat.zero_le _
  | cons p tr ih =>
    intro cs L
    obtain ⟨ts, sub⟩ := p
    rw [countRed_cons]
    rcases stepFiles_cases ⟨update_codes cs, L⟩ ts sub with ⟨h1, h2⟩ | ⟨hf, hm, h2⟩
    · rw [h2, if_neg (fun hand => h1 hand.1)]
      simpa using ih cs L
    · have hm' : parseNat sub.codeInput ∈ cs := by
        rwa [load_update] at hm
      rw [h2]
      show (if Outcome.success = Outcome.success ∧ parseNat sub.codeInput = v
          then 1 else 0) +
        countRed v ⟨update_codes ((load_codes (update_codes cs)).erase
          (parseNat sub.codeInput)),
          L ++ logLine ts (parseNat sub.codeInput) sub.name sub.roll⟩ tr ≤
        cs.count v
      rw [load_update]
      by_cases hv : parseNat sub.codeInput = v
      · rw [if_pos ⟨rfl, hv⟩]
        subst hv
        have hrec := ih (cs.erase (parseNat sub.codeInput))
          (L ++ logLine ts (parseNat sub.codeInput) sub.name sub.roll)
        have hcnt := List.count_erase_self (parseNat sub.codeInput) cs
        have hpos : cs.count (parseNat sub.codeInput) ≠ 0 :=
          fun h0 => (List.count_eq_zero.1 h0) hm'
        omega
      · rw [if_neg (fun hand => hv hand.2)]
        have hrec := ih (cs.erase (parseNat sub.codeInput))
          (L ++ logLine ts (parseNat sub.codeInput) sub.name sub.roll)
        rw [List.count_erase_of_ne (fun e => hv e.symm)] at hrec
        omega

end CertApp

namespace CertApp

/-! ### Shape of an appended log line under the read path -/

theorem newline_not_mem_body {name roll : Str} (hn : '\n' ∉ name)
    (hr : '\n' ∉ roll) (ts : Timestamp) (c : Nat) :
    '\n' ∉ fmtTimestamp ts ++ ',' :: (natToStr c ++ ',' :: (name ++ ',' :: roll)) := by
  intro hm
  simp only [List.mem_append, List.mem_cons] at hm
  rcases hm with h | h | h | h | h | h | h
  · exact not_mem_fmtTimestamp (by decide) (by decide) (by decide) (by decide) ts h
  · exact absurd h (by decide)
  · exact not_mem_natToStr (by decide) c h
  · exact absurd h (by decide)
  · exact hn h
  · exact absurd h (by decide)
  · exact hr h

theorem pyStrip_body (ts : Timestamp) (c : Nat) (name roll : Str) :
    pyStrip (fmtTimestamp ts ++ ',' :: (natToStr c ++ ',' :: (name ++ ',' :: roll))) =
      fmtTimestamp ts ++ ',' :: (natToStr c ++ ',' :: (name ++ ',' :: pyRstrip roll)) := by
  obtain ⟨d, rest, heq, hd⟩ := fmtTimestamp_head ts
  unfold pyStrip
  rw [pyRstrip_append_cons (by decide), pyRstrip_append_cons (by decide),
    pyRstrip_append_cons (by decide), heq, List.cons_append,
    pyLstrip_cons_of (digit_not_space hd)]

theorem comma_count_body (ts : Timestamp) (c : Nat) (name roll : Str) :
    (fmtTimestamp ts ++ ',' ::
      (natToStr c ++ ',' :: (name ++ ',' :: pyRstrip roll))).count ',' =
      3 + name.count ',' + roll.count ',' := by
  rw [List.count_append, List.count_cons_self, List.count_append,
    List.count_cons_self, List.count_append, List.count_cons_self]
  rw [List.count_eq_zero.2 (not_mem_fmtTimestamp (by decide) (by decide)
    (by decide) (by decide) ts)]
  rw [List.count_eq_zero.2 (not_mem_natToStr (by decide) c)]
  rw [count_pyRstrip (by decide) roll]
  omega

theorem parse_body_no_comma {name roll : Str} (hn : ',' ∉ name) (hr : ',' ∉ roll)
    (ts : Timestamp) (c : Nat) :
    parseLogLine (fmtTimestamp ts ++ ',' ::
        (natToStr c ++ ',' :: (name ++ ',' :: roll))) =
      some ⟨fmtTimestamp ts, natToStr c, name, pyRstrip roll⟩ := by
  unfold parseLogLine
  rw [pyStrip_body]
  rw [splitOnChar_append_cons_of_not_mem (not_mem_fmtTimestamp (by decide)
      (by decide) (by decide) (by decide) ts),
    splitOnChar_append_cons_of_not_mem (not_mem_natToStr (by decide) c),
    splitOnChar_append_cons_of_not_mem hn,
    splitOnChar_of_not_mem (not_mem_pyRstrip hr)]

theorem parse_body_comma {name roll : Str} (h : ',' ∈ name ∨ ',' ∈ roll)
    (ts : Timestamp) (c : Nat) :
    parseLogLine (fmtTimestamp ts ++ ',' ::
        (natToStr c ++ ',' :: (name ++ ',' :: roll))) = none := by
  have hlen : (splitOnChar ',' (pyStrip (fmtTimestamp ts ++ ',' ::
      (natToStr c ++ ',' :: (name ++ ',' :: roll))))).length ≠ 4 := by
    rw [pyStrip_body, length_splitOnChar, comma_count_body]
    have hcc : name.count ',' ≠ 0 ∨ roll.count ',' ≠ 0 := by
      rcases h with h | h
      · exact Or.inl (fun h0 => (List.count_eq_zero.1 h0) h)
      · exact Or.inr (fun h0 => (List.count_eq_zero.1 h0) h)
    omega
  unfold parseLogLine
  rcases hsp : splitOnChar ',' (pyStrip (fmtTimestamp ts ++ ',' ::
      (natToStr c ++ ',' :: (name ++ ',' :: roll)))) with
    _ | ⟨a1, _ | ⟨a2, _ | ⟨a3, _ | ⟨a4, _ | ⟨a5, t5⟩⟩⟩⟩⟩
  · rfl
  · rfl
  · rfl
  · rfl
  · exfalso
    exact hlen (by rw [hsp]; rfl)
  · rfl

theorem viewLogs_logLine {lg : Str} (hlog : GoodLog lg) {name roll : Str}
    (hn : '\n' ∉ name) (hr : '\n' ∉ roll) (ts : Timestamp) (c : Nat) :
    viewLogs (lg ++ logLine ts c name roll) =
      viewLogs lg ++ (if ',' ∉ name ∧ ',' ∉ roll
        then [⟨fmtTimestamp ts, natToStr c, name, pyRstrip roll⟩] else []) := by
  rw [viewLogs_append hlog]
  congr 1
  rw [logLine_concat,
    splitOnChar_append_cons_of_not_mem (newline_not_mem_body hn hr ts c),
    splitOnChar_nil]
  by_cases hc : ',' ∉ name ∧ ',' ∉ roll
  · rw [if_pos hc]
    simp [parse_body_no_comma hc.1 hc.2, parseLogLine_nil]
  · rw [if_neg hc]
    have h2 : ',' ∈ name ∨ ',' ∈ roll := by
      by_contra hno
      push_neg at hno
      exact hc ⟨hno.1, hno.2⟩
    simp [parse_body_comma h2, parseLogLine_nil]

end CertApp

namespace CertApp

/-! ### Inline text drawing -/

theorem drawInlineSpec_cons (w : Str → Str × ℚ → ℚ) (sx mx lh cx cy : ℚ)
    (seg : Str × (Str × ℚ)) (rest : List (Str × (Str × ℚ))) :
    drawInlineSpec w sx mx lh cx cy (seg :: rest) =
      if cx + w seg.1 seg.2 > mx then
        (⟨sx, cy - lh, seg.1, seg.2⟩ ::
          (drawInlineSpec w sx mx lh (sx + w seg.1 seg.2) (cy - lh) rest).1,
         (drawInlineSpec w sx mx lh (sx + w seg.1 seg.2) (cy - lh) rest).2)
      else
        (⟨cx, cy, seg.1, seg.2⟩ ::
          (drawInlineSpec w sx mx lh (cx + w seg.1 seg.2) cy rest).1,
         (drawInlineSpec w sx mx lh (cx + w seg.1 seg.2) cy rest).2) := rfl

theorem drawStep_eq (w : Str → Str × ℚ → ℚ) (sx mx lh cx cy : ℚ)
    (acc : List DrawCall) (seg : Str × (Str × ℚ)) :
    drawStep w sx mx lh (cx, cy, acc) seg =
      if cx + w seg.1 seg.2 > mx then
        (sx + w seg.1 seg.2, cy - lh, acc ++ [⟨sx, cy - lh, seg.1, seg.2⟩])
      else
        (cx + w seg.1 seg.2, cy, acc ++ [⟨cx, cy, seg.1, seg.2⟩]) := rfl

theorem foldl_drawStep (w : Str → Str × ℚ → ℚ) (sx mx lh : ℚ) :
    ∀ (segments : List (Str × (Str × ℚ))) (cx cy : ℚ) (acc : List DrawCall),
    ((segments.foldl (drawStep w sx mx lh) (cx, cy, acc)).2.1 =
       (drawInlineSpec w sx mx lh cx cy segments).2) ∧
    ((segments.foldl (drawStep w sx mx lh) (cx, cy, acc)).2.2 =
       acc ++ (drawInlineSpec w sx mx lh cx cy segments).1) := by
  intro segments
  induction segments with
  | nil =>
    intro cx cy acc
    exact ⟨rfl, by simp [drawInlineSpec]⟩
  | cons seg rest ih =>
    intro cx cy acc
    rw [List.foldl_cons, drawStep_eq, drawInlineSpec_cons]
    by_cases hw : cx + w seg.1 seg.2 > mx
    · rw [if_pos hw, if_pos hw]
      obtain ⟨ih1, ih2⟩ := ih (sx + w seg.1 seg.2) (cy - lh)
        (acc ++ [⟨sx, cy - lh, seg.1, seg.2⟩])
      refine ⟨ih1, ?_⟩
      rw [ih2]
      simp
    · rw [if_neg hw, if_neg hw]
      obtain ⟨ih1, ih2⟩ := ih (cx + w seg.1 seg.2) cy
        (acc ++ [⟨cx, cy, seg.1, seg.2⟩])
      refine ⟨ih1, ?_⟩
      rw [ih2]
      simp

theorem draw_inline_text_eq_spec (w : Str → Str × ℚ → ℚ) (sx sy mx lh : ℚ)
    (segments : List (Str × (Str × ℚ))) :
    draw_inline_text w sx sy segments mx lh =
      drawInlineSpec w sx mx lh sx sy segments := by
  show ((segments.foldl (drawStep w sx mx lh) (sx, sy, [])).2.2,
    (segments.foldl (drawStep w sx mx lh) (sx, sy, [])).2.1) = _
  obtain ⟨h1, h2⟩ := foldl_drawStep w sx mx lh segments sx sy []
  rw [h1, h2]
  simp

theorem drawInlineSpec_length (w : Str → Str × ℚ → ℚ) (sx mx lh : ℚ) :
    ∀ (segments : List (Str × (Str × ℚ))) (cx cy : ℚ),
    (drawInlineSpec w sx mx lh cx cy segments).1.length = segments.length := by
  intro segments
  induction segments with
  | nil =>
    intro cx cy
    rfl
  | cons seg rest ih =>
    intro cx cy
    rw [drawInlineSpec_cons]
    split <;> simp [ih]

theorem drawInlineSpec_getLast (w : Str → Str × ℚ → ℚ) (sx mx lh : ℚ) :
    ∀ (segments : List (Str × (Str × ℚ))) (cx cy : ℚ), segments ≠ [] →
    ((drawInlineSpec w sx mx lh cx cy segments).1.getLastD dcDefault).y =
      (drawInlineSpec w sx mx lh cx cy segments).2 := by
  intro segments
  induction segments with
  | nil =>
    intro cx cy h
    exact absurd rfl h
  | cons seg rest ih =>
    intro cx cy h
    cases rest with
    | nil =>
      rw [drawInlineSpec_cons]
      split <;> rfl
    | cons seg2 rest2 =>
      have hne : ∀ cx2 cy2 : ℚ,
          (drawInlineSpec w sx mx lh cx2 cy2 (seg2 :: rest2)).1 ≠ [] := by
        intro cx2 cy2 he
        have hl := drawInlineSpec_length w sx mx lh (seg2 :: rest2) cx2 cy2
        rw [he] at hl
        simp at hl
      rw [drawInlineSpec_cons]
      split
      · rw [List.getLastD_cons, getLastD_irrel (hne _ _) _ dcDefault]
        exact ih _ _ (List.cons_ne_nil seg2 rest2)
      · rw [List.getLastD_cons, getLastD_irrel (hne _ _) _ dcDefault]
        exact ih _ _ (List.cons_ne_nil seg2 rest2)

end CertApp

namespace CertApp

/-! ### The claims -/

/-- C1: for every code-store state (the codes file holds the rendering of
a sequence of outstanding codes) and every valid submission (a 4-digit
code string whose value is in the store, non-empty name and roll number),
one button press succeeds, rewrites the codes file to the rendering of
the prior sequence with the consumed code removed from it (the first
occurrence, which under the store's uniqueness invariant is the only
one), and replaces the log file by the old content with exactly one log
record appended at its end, so every previously written byte is
unchanged. -/
theorem claim_C1 (cs : List Nat) (L : Str) (ts : Timestamp) (sub : Submission)
    (hf : validFormat sub.codeInput = true)
    (hm : parseNat sub.codeInput ∈ cs)
    (hn : sub.name ≠ []) (hr : sub.roll ≠ []) :
    stepFiles ⟨update_codes cs, L⟩ ts sub =
      (Outcome.success,
       ⟨update_codes (cs.erase (parseNat sub.codeInput)),
        L ++ logLine ts (parseNat sub.codeInput) sub.name sub.roll⟩) ∧
    load_codes (update_codes (cs.erase (parseNat sub.codeInput))) =
      cs.erase (parseNat sub.codeInput) := by
  have hm' : parseNat sub.codeInput ∈
      load_codes ((⟨update_codes cs, L⟩ : FileState)).codesFile := by
    show parseNat sub.codeInput ∈ load_codes (update_codes cs)
    rwa [load_update]
  constructor
  · rw [stepFiles_success hf ⟨update_codes cs, L⟩ ts hm' hn hr]
    show (Outcome.success,
      (⟨update_codes ((load_codes (update_codes cs)).erase (parseNat sub.codeInput)),
        L ++ logLine ts (parseNat sub.codeInput) sub.name sub.roll⟩ : FileState)) = _
    rw [load_update]
  · rw [load_update]

/-- Witness for C1 at the specification's concrete scenario: store
[1234, 5678], submission 1234 / Asha Rao / 2021CS01. -/
theorem claim_C1_witness :
    validFormat subEx.codeInput = true ∧ parseNat subEx.codeInput ∈ csEx ∧
    subEx.name ≠ [] ∧ subEx.roll ≠ [] ∧
    (stepFiles ⟨update_codes csEx, []⟩ tsEx subEx =
      (Outcome.success,
       ⟨update_codes (csEx.erase (parseNat subEx.codeInput)),
        [] ++ logLine tsEx (parseNat subEx.codeInput) subEx.name subEx.roll⟩) ∧
     load_codes (update_codes (csEx.erase (parseNat subEx.codeInput))) =
       csEx.erase (parseNat subEx.codeInput)) :=
  ⟨by decide, by decide, by decide, by decide,
   claim_C1 csEx [] tsEx subEx (by decide) (by decide) (by decide) (by decide)⟩

/-- C2 counterexample: when the codes file holds the duplicate store
[1234, 1234], the submission 1234 succeeds, an immediate second
submission of the same code succeeds again instead of failing with the
invalid-or-already-used error, and 1234 is successfully redeemed twice
across the two-step run — the claim asserts this can never happen. -/
theorem claim_C2_counterexample :
    (stepFiles ⟨update_codes [1234, 1234], []⟩ tsEx subEx).1 = Outcome.success ∧
    (stepFiles (stepFiles ⟨update_codes [1234, 1234], []⟩ tsEx subEx).2
      tsEx subEx).1 = Outcome.success ∧
    countRed 1234 ⟨update_codes [1234, 1234], []⟩
      [(tsEx, subEx), (tsEx, subEx)] = 2 := by
  decide

/-- C2 (amended): provided the loaded code list contains no duplicates
(the specification's uniqueness invariant for the store), a redemption
of a present code with non-empty identity succeeds; afterwards, any
later attempt with the same code input, after any further sequence of
button presses, fails with the invalid-or-already-used error and leaves
the state unchanged; and along any sequence of presses no code value is
successfully redeemed more than once. -/
theorem claim_C2 (cs : List Nat) (L : Str) (ts : Timestamp) (sub : Submission)
    (hnd : cs.Nodup) (hf : validFormat sub.codeInput = true)
    (hm : parseNat sub.codeInput ∈ cs) (hn : sub.name ≠ []) (hr : sub.roll ≠ []) :
    (stepFiles ⟨update_codes cs, L⟩ ts sub).1 = Outcome.success ∧
    (∀ (tr : List (Timestamp × Submission)) (ts2 : Timestamp) (sub2 : Submission),
      sub2.codeInput = sub.codeInput →
      stepFiles (runSt (stepFiles ⟨update_codes cs, L⟩ ts sub).2 tr) ts2 sub2 =
        (Outcome.membershipError,
         runSt (stepFiles ⟨update_codes cs, L⟩ ts sub).2 tr)) ∧
    (∀ (v : Nat) (tr : List (Timestamp × Submission)),
      countRed v ⟨update_codes cs, L⟩ tr ≤ 1) := by
  have hm' : parseNat sub.codeInput ∈
      load_codes ((⟨update_codes cs, L⟩ : FileState)).codesFile := by
    show parseNat sub.codeInput ∈ load_codes (update_codes cs)
    rwa [load_update]
  have hstep := stepFiles_success hf ⟨update_codes cs, L⟩ ts hm' hn hr
  refine ⟨by rw [hstep], ?_, ?_⟩
  · intro tr ts2 sub2 hsame
    have hout : parseNat sub.codeInput ∉
        load_codes ((stepFiles ⟨update_codes cs, L⟩ ts sub).2).codesFile := by
      rw [hstep]
      show parseNat sub.codeInput ∉ load_codes (update_codes
        ((load_codes (update_codes cs)).erase (parseNat sub.codeInput)))
      rw [load_update, load_update]
      intro hmem
      exact absurd rfl ((hnd.mem_erase_iff.1 hmem).1)
    have hout2 := runSt_not_mem tr _ hout
    apply stepFiles_membershipError
    · rw [hsame]
      exact hf
    · rw [hsame]
      exact hout2
  · intro v tr
    have hle := countRed_le v tr cs L
    have hone : cs.count v ≤ 1 := List.nodup_iff_count_le_one.1 hnd v
    omega

/-- Witness for the amended C2 at the store [1234, 5678]. -/
theorem claim_C2_witness :
    (stepFiles ⟨update_codes csEx, []⟩ tsEx subEx).1 = Outcome.success ∧
    stepFiles (runSt (stepFiles ⟨update_codes csEx, []⟩ tsEx subEx).2 [])
        tsEx subEx =
      (Outcome.membershipError,
       runSt (stepFiles ⟨update_codes csEx, []⟩ tsEx subEx).2 []) ∧
    countRed 1234 ⟨update_codes csEx, []⟩ [(tsEx, subEx), (tsEx, subEx)] ≤ 1 :=
  have h := claim_C2 csEx [] tsEx subEx (by decide) (by decide) (by decide)
    (by decide) (by decide)
  ⟨h.1, h.2.1 [] tsEx subEx rfl, h.2.2 1234 [(tsEx, subEx), (tsEx, subEx)]⟩

/-- C3: a submission whose code input is empty, has a length other than
4, or contains a non-digit character is rejected with the
please-enter-a-valid-4-digit-code message, and both files are returned
unchanged. -/
theorem claim_C3 (cs : List Nat) (L : Str) (ts : Timestamp) (sub : Submission)
    (h : sub.codeInput = [] ∨ sub.codeInput.length ≠ 4 ∨
      ¬ (∀ c ∈ sub.codeInput, isPyDigit c = true)) :
    stepFiles ⟨update_codes cs, L⟩ ts sub =
      (Outcome.formatError, ⟨update_codes cs, L⟩) ∧
    outcomeMessage (stepFiles ⟨update_codes cs, L⟩ ts sub).1 =
      ("Please enter a valid 4-digit code.").toList := by
  have hvf : validFormat sub.codeInput = false := by
    unfold validFormat pyIsdigit
    rcases h with h | h | h
    · rw [h]
      rfl
    · have hb : (sub.codeInput.length == 4) = false := by
        simp [h]
      rw [hb]
      simp
    · have hall : sub.codeInput.all isPyDigit = false := by
        cases hall : sub.codeInput.all isPyDigit
        · rfl
        · exact absurd (fun c hc => List.all_eq_true.1 hall c hc) h
      rw [hall]
      simp
  have hstep := stepFiles_formatError hvf ⟨update_codes cs, L⟩ ts
  exact ⟨hstep, by rw [hstep]; rfl⟩

/-- Witness for C3 at the specification's scenario: input 12a4. -/
theorem claim_C3_witness :
    (subBadEx.codeInput = [] ∨ subBadEx.codeInput.length ≠ 4 ∨
      ¬ (∀ c ∈ subBadEx.codeInput, isPyDigit c = true)) ∧
    (stepFiles ⟨update_codes csEx, []⟩ tsEx subBadEx =
        (Outcome.formatError, ⟨update_codes csEx, []⟩) ∧
     outcomeMessage (stepFiles ⟨update_codes csEx, []⟩ tsEx subBadEx).1 =
       ("Please enter a valid 4-digit code.").toList) :=
  ⟨by decide, claim_C3 csEx [] tsEx subBadEx (by decide)⟩

/-- C4: a well-formed code that is in the store combined with an empty
name or roll number yields the missing-identity error with both files
unchanged; moreover the checks fire in the order format, membership,
identity — a format failure masks everything regardless of the other
fields, and a membership failure masks the identity check. -/
theorem claim_C4 (cs : List Nat) (L : Str) (ts : Timestamp) (sub : Submission) :
    (validFormat sub.codeInput = true → parseNat sub.codeInput ∈ cs →
      sub.name = [] ∨ sub.roll = [] →
      stepFiles ⟨update_codes cs, L⟩ ts sub =
        (Outcome.identityError, ⟨update_codes cs, L⟩)) ∧
    (validFormat sub.codeInput = false →
      stepFiles ⟨update_codes cs, L⟩ ts sub =
        (Outcome.formatError, ⟨update_codes cs, L⟩)) ∧
    (validFormat sub.codeInput = true → parseNat sub.codeInput ∉ cs →
      stepFiles ⟨update_codes cs, L⟩ ts sub =
        (Outcome.membershipError, ⟨update_codes cs, L⟩)) := by
  refine ⟨?_, ?_, ?_⟩
  · intro hf hm hn
    apply stepFiles_identityError hf _ ts _ hn
    show parseNat sub.codeInput ∈ load_codes (update_codes cs)
    rwa [load_update]
  · intro hvf
    exact stepFiles_formatError hvf _ ts
  · intro hf hm
    apply stepFiles_membershipError hf _ ts
    show parseNat sub.codeInput ∉ load_codes (update_codes cs)
    rwa [load_update]

/-- Witness for C4: empty name, bad format and absent code each hit
their own check. -/
theorem claim_C4_witness :
    stepFiles ⟨update_codes csEx, []⟩ tsEx subNoNameEx =
      (Outcome.identityError, ⟨update_codes csEx, []⟩) ∧
    stepFiles ⟨update_codes csEx, []⟩ tsEx subBadEx =
      (Outcome.formatError, ⟨update_codes csEx, []⟩) ∧
    stepFiles ⟨update_codes csEx, []⟩ tsEx subAbsentEx =
      (Outcome.membershipError, ⟨update_codes csEx, []⟩) :=
  ⟨(claim_C4 csEx [] tsEx subNoNameEx).1 (by decide) (by decide) (by decide),
   (claim_C4 csEx [] tsEx subBadEx).2.1 (by decide),
   (claim_C4 csEx [] tsEx subAbsentEx).2.2 (by decide) (by decide)⟩

/-- C5: the View Logs read path equals, in file order, the filter of the
lines whose stripped content splits on commas into exactly 4 fields,
each kept line mapped to the timestamp, code, name, roll-number columns
in that order; every other line is skipped.  The read path is a total
function of the file content, so no input makes it raise. -/
theorem claim_C5 (content : Str) :
    viewLogs content = (splitOnChar '\n' content).filterMap parseLogLine ∧
    (∀ line : Str, (parseLogLine line).isSome = true ↔
      (splitOnChar ',' (pyStrip line)).length = 4) ∧
    (∀ (line : Str) (r : LogRecord), parseLogLine line = some r →
      splitOnChar ',' (pyStrip line) = [r.timestamp, r.code, r.name, r.roll]) := by
  refine ⟨viewLogs_eq content, ?_, ?_⟩
  · intro line
    unfold parseLogLine
    rcases hsp : splitOnChar ',' (pyStrip line) with
      _ | ⟨a1, _ | ⟨a2, _ | ⟨a3, _ | ⟨a4, _ | ⟨a5, t5⟩⟩⟩⟩⟩ <;> simp
  · intro line r hp
    unfold parseLogLine at hp
    rcases hsp : splitOnChar ',' (pyStrip line) with
      _ | ⟨a1, _ | ⟨a2, _ | ⟨a3, _ | ⟨a4, _ | ⟨a5, t5⟩⟩⟩⟩⟩
    · rw [hsp] at hp
      exact Option.noConfusion hp
    · rw [hsp] at hp
      exact Option.noConfusion hp
    · rw [hsp] at hp
      exact Option.noConfusion hp
    · rw [hsp] at hp
      exact Option.noConfusion hp
    · rw [hsp] at hp
      rw [← Option.some.inj hp]
    · rw [hsp] at hp
      exact Option.noConfusion hp

/-- Witness for C5 on a one-record log file. -/
theorem claim_C5_witness :
    viewLogs (lineEx ++ ['\n']) =
      (splitOnChar '\n' (lineEx ++ ['\n'])).filterMap parseLogLine ∧
    ((parseLogLine lineEx).isSome = true ↔
      (splitOnChar ',' (pyStrip lineEx)).length = 4) ∧
    parseLogLine lineEx = some recEx ∧
    splitOnChar ',' (pyStrip lineEx) =
      [recEx.timestamp, recEx.code, recEx.name, recEx.roll] :=
  have h := claim_C5 (lineEx ++ ['\n'])
  ⟨h.1, h.2.1 lineEx, by decide, h.2.2 lineEx recEx (by decide)⟩

end CertApp

namespace CertApp

/-- C6: one call of the log append operation turns the old file content
into the old content followed by exactly one line — non-empty,
terminated by a newline, containing exactly one newline — of the form
timestamp,code,name,roll_number, with the timestamp shaped
YYYY-MM-DD HH:MM:SS; the old content stays in place as a prefix, so no
previously written line changes.  The hypotheses record that
datetime.now() yields calendar-range field values and that the
single-line form inputs contain no newline character. -/
theorem claim_C6 (old : Str) (ts : Timestamp) (code : Nat) (name roll : Str)
    (hts : ts.valid = true) (hn : '\n' ∉ name) (hr : '\n' ∉ roll) :
    log_certificate_generation ts code name roll old =
      old ++ logLine ts code name roll ∧
    logLine ts code name roll ≠ [] ∧
    (logLine ts code name roll).getLast? = some '\n' ∧
    (logLine ts code name roll).count '\n' = 1 ∧
    logLine ts code name roll =
      fmtTimestamp ts ++ ',' ::
        (natToStr code ++ ',' :: (name ++ ',' :: (roll ++ ['\n']))) ∧
    isTimestampFormat (fmtTimestamp ts) = true :=
  ⟨rfl, logLine_ne_nil ts code name roll, getLast?_logLine ts code name roll,
   count_newline_logLine hn hr ts code, rfl, isTimestampFormat_fmt hts⟩

/-- Witness for C6 at a concrete timestamp and identity. -/
theorem claim_C6_witness :
    tsEx.valid = true ∧
    (log_certificate_generation tsEx 1234 subEx.name subEx.roll [] =
      [] ++ logLine tsEx 1234 subEx.name subEx.roll ∧
    logLine tsEx 1234 subEx.name subEx.roll ≠ [] ∧
    (logLine tsEx 1234 subEx.name subEx.roll).getLast? = some '\n' ∧
    (logLine tsEx 1234 subEx.name subEx.roll).count '\n' = 1 ∧
    logLine tsEx 1234 subEx.name subEx.roll =
      fmtTimestamp tsEx ++ ',' ::
        (natToStr 1234 ++ ',' :: (subEx.name ++ ',' :: (subEx.roll ++ ['\n']))) ∧
    isTimestampFormat (fmtTimestamp tsEx) = true) :=
  ⟨by decide,
   claim_C6 [] tsEx 1234 subEx.name subEx.roll (by decide) (by decide) (by decide)⟩

/-- C7 counterexample: the renderer's guards test emptiness of the
hardcoded path strings, never file presence.  With the source's paths
and an absent file, the header draw call is reached and fails instead
of falling back to the text title, and each signature draw call is
reached and fails instead of being skipped — contradicting the claim
that an absent header falls back and an absent signature is skipped. -/
theorem claim_C7_counterexample :
    headerRender header_img_path false = AssetOutcome.drawFailed ∧
    headerRender header_img_path false ≠ AssetOutcome.textTitleDrawn ∧
    signatureRender signature1_path false = AssetOutcome.drawFailed ∧
    signatureRender signature1_path false ≠ AssetOutcome.skipped ∧
    signatureRender signature2_path false ≠ AssetOutcome.skipped ∧
    signatureRender signature3_path false ≠ AssetOutcome.skipped := by
  decide

/-- C7 (amended): the text-title fallback and the signature skip are
selected by emptiness of the configured path variable, not by presence
of the image file.  The source hardcodes four non-empty paths, so the
image branch is always taken: with the file present the image is drawn,
with the file absent the draw call fails (reportlab raises on an
unreadable path) — it does not fall back and does not skip. -/
theorem claim_C7 (path : Str) (b : Bool) :
    headerRender [] b = AssetOutcome.textTitleDrawn ∧
    signatureRender [] b = AssetOutcome.skipped ∧
    (path ≠ [] → headerRender path true = AssetOutcome.imageDrawn) ∧
    (path ≠ [] → headerRender path false = AssetOutcome.drawFailed) ∧
    (path ≠ [] → signatureRender path false = AssetOutcome.drawFailed) ∧
    headerRender header_img_path b =
      (if b then AssetOutcome.imageDrawn else AssetOutcome.drawFailed) ∧
    signatureRender signature1_path b =
      (if b then AssetOutcome.imageDrawn else AssetOutcome.drawFailed) ∧
    signatureRender signature2_path b =
      (if b then AssetOutcome.imageDrawn else AssetOutcome.drawFailed) ∧
    signatureRender signature3_path b =
      (if b then AssetOutcome.imageDrawn else AssetOutcome.drawFailed) := by
  refine ⟨rfl, rfl, fun hp => ?_, fun hp => ?_, fun hp => ?_, ?_, ?_, ?_, ?_⟩
  · unfold headerRender
    rw [isEmpty_false_of_ne hp]
    rfl
  · unfold headerRender
    rw [isEmpty_false_of_ne hp]
    rfl
  · unfold signatureRender
    rw [isEmpty_false_of_ne hp]
    rfl
  · cases b <;> decide
  · cases b <;> decide
  · cases b <;> decide
  · cases b <;> decide

/-- Witness for the amended C7 at the source's header path with the
file absent. -/
theorem claim_C7_witness :
    header_img_path ≠ [] ∧
    headerRender header_img_path true = AssetOutcome.imageDrawn ∧
    headerRender header_img_path false = AssetOutcome.drawFailed ∧
    signatureRender header_img_path false = AssetOutcome.drawFailed ∧
    headerRender [] false = AssetOutcome.textTitleDrawn ∧
    signatureRender [] false = AssetOutcome.skipped :=
  have h := claim_C7 header_img_path false
  ⟨by decide, h.2.2.1 (by decide), h.2.2.2.1 (by decide),
   h.2.2.2.2.1 (by decide), h.1, h.2.1⟩

/-- C8: draw_inline_text is exactly the declarative wrapping rule — walk
the segments left to right with a cursor advanced by each rendered
width; when the cursor plus the next width would exceed max_x, draw that
segment at start_x one line_height lower; — it emits one draw call per
segment, and the returned value is the y coordinate of the last call it
drew. -/
theorem claim_C8 (w : Str → Str × ℚ → ℚ) (sx sy mx lh : ℚ)
    (segments : List (Str × (Str × ℚ))) (hne : segments ≠ []) :
    draw_inline_text w sx sy segments mx lh =
      drawInlineSpec w sx mx lh sx sy segments ∧
    ((draw_inline_text w sx sy segments mx lh).1.getLastD dcDefault).y =
      (draw_inline_text w sx sy segments mx lh).2 ∧
    (draw_inline_text w sx sy segments mx lh).1.length = segments.length := by
  have he := draw_inline_text_eq_spec w sx sy mx lh segments
  refine ⟨he, ?_, ?_⟩
  · rw [he]
    exact drawInlineSpec_getLast w sx mx lh segments sx sy hne
  · rw [he]
    exact drawInlineSpec_length w sx mx lh segments sx sy

/-- Witness for C8 on the first two segments of the certificate body
with a width metric that forces a wrap. -/
theorem claim_C8_witness :
    segsEx ≠ [] ∧
    (draw_inline_text wEx 20 700 segsEx 130 18 =
      drawInlineSpec wEx 20 130 18 20 700 segsEx ∧
    ((draw_inline_text wEx 20 700 segsEx 130 18).1.getLastD dcDefault).y =
      (draw_inline_text wEx 20 700 segsEx 130 18).2 ∧
    (draw_inline_text wEx 20 700 segsEx 130 18).1.length = segsEx.length) :=
  ⟨by decide, claim_C8 wEx 20 700 130 18 segsEx (by decide)⟩

/-- C9: appending the record of a successful redemption and then running
the View Logs read path displays exactly one additional row — the one
just written — precisely when the holder name and the roll number are
both comma-free; with a comma in either, the stripped line splits into
more than 4 comma-separated fields and the read path drops it.  The
hypotheses record that the existing log content is append-generated
(empty or newline-terminated) and that the single-line form inputs
contain no newline. -/
theorem claim_C9 (lg : Str) (ts : Timestamp) (code : Nat) (name roll : Str)
    (hlog : GoodLog lg) (hn : '\n' ∉ name) (hr : '\n' ∉ roll) :
    viewLogs (log_certificate_generation ts code name roll lg) =
      viewLogs lg ++ (if ',' ∉ name ∧ ',' ∉ roll
        then [⟨fmtTimestamp ts, natToStr code, name, pyRstrip roll⟩] else []) ∧
    (¬ (',' ∉ name ∧ ',' ∉ roll) →
      4 < (splitOnChar ',' (pyStrip (fmtTimestamp ts ++ ',' ::
        (natToStr code ++ ',' :: (name ++ ',' :: roll))))).length) := by
  constructor
  · exact viewLogs_logLine hlog hn hr ts code
  · intro hcm
    rw [pyStrip_body, length_splitOnChar, comma_count_body]
    have hor : ',' ∈ name ∨ ',' ∈ roll := by
      by_contra hno
      push_neg at hno
      exact hcm ⟨hno.1, hno.2⟩
    have hcc : name.count ',' ≠ 0 ∨ roll.count ',' ≠ 0 := by
      rcases hor with h | h
      · exact Or.inl (fun h0 => (List.count_eq_zero.1 h0) h)
      · exact Or.inr (fun h0 => (List.count_eq_zero.1 h0) h)
    omega

/-- Witness for C9: a comma-free record is displayed; a comma-carrying
name makes the line split into more than 4 fields. -/
theorem claim_C9_witness :
    GoodLog ([] : Str) ∧
    viewLogs (log_certificate_generation tsEx 1234 subEx.name subEx.roll []) =
      viewLogs [] ++ (if ',' ∉ subEx.name ∧ ',' ∉ subEx.roll
        then [⟨fmtTimestamp tsEx, natToStr 1234, subEx.name,
          pyRstrip subEx.roll⟩] else []) ∧
    4 < (splitOnChar ',' (pyStrip (fmtTimestamp tsEx ++ ',' ::
      (natToStr 1234 ++ ',' :: (nameCommaEx ++ ',' :: subEx.roll))))).length :=
  ⟨Or.inl rfl,
   (claim_C9 [] tsEx 1234 subEx.name subEx.roll (Or.inl rfl)
     (by decide) (by decide)).1,
   (claim_C9 [] tsEx 1234 nameCommaEx subEx.roll (Or.inl rfl)
     (by decide) (by decide)).2 (by decide)⟩

/-- C10: when the loaded code list holds the submitted code value more
than once, a successful redemption erases only the first occurrence, so
the rewritten codes file still renders the remaining occurrences and a
second submission of the same code succeeds again. -/
theorem claim_C10 (l1 l2 : List Nat) (L : Str) (ts ts2 : Timestamp)
    (sub : Submission) (hf : validFormat sub.codeInput = true)
    (h1 : parseNat sub.codeInput ∉ l1) (h2 : parseNat sub.codeInput ∈ l2)
    (hn : sub.name ≠ []) (hr : sub.roll ≠ []) :
    stepFiles ⟨update_codes (l1 ++ parseNat sub.codeInput :: l2), L⟩ ts sub =
      (Outcome.success,
       ⟨update_codes (l1 ++ l2),
        L ++ logLine ts (parseNat sub.codeInput) sub.name sub.roll⟩) ∧
    parseNat sub.codeInput ∈ l1 ++ l2 ∧
    (stepFiles ⟨update_codes (l1 ++ l2),
        L ++ logLine ts (parseNat sub.codeInput) sub.name sub.roll⟩
      ts2 sub).1 = Outcome.success := by
  have herase : (l1 ++ parseNat sub.codeInput :: l2).erase (parseNat sub.codeInput)
      = l1 ++ l2 := by
    rw [List.erase_append_right _ h1, List.erase_cons_head]
  have hmem : parseNat sub.codeInput ∈
      load_codes ((⟨update_codes (l1 ++ parseNat sub.codeInput :: l2), L⟩ :
        FileState)).codesFile := by
    show parseNat sub.codeInput ∈
      load_codes (update_codes (l1 ++ parseNat sub.codeInput :: l2))
    rw [load_update]
    simp
  refine ⟨?_, by simp [h2], ?_⟩
  · rw [stepFiles_success hf _ ts hmem hn hr]
    show (Outcome.success,
      (⟨update_codes ((load_codes (update_codes
          (l1 ++ parseNat sub.codeInput :: l2))).erase (parseNat sub.codeInput)),
        L ++ logLine ts (parseNat sub.codeInput) sub.name sub.roll⟩ :
        FileState)) = _
    rw [load_update, herase]
  · have hmem2 : parseNat sub.codeInput ∈
        load_codes ((⟨update_codes (l1 ++ l2),
          L ++ logLine ts (parseNat sub.codeInput) sub.name sub.roll⟩ :
          FileState)).codesFile := by
      show parseNat sub.codeInput ∈ load_codes (update_codes (l1 ++ l2))
      rw [load_update]
      simp [h2]
    rw [stepFiles_success hf _ ts2 hmem2 hn hr]

/-- Witness for C10 at the duplicate store [1234, 1234]. -/
theorem claim_C10_witness :
    validFormat subEx.codeInput = true ∧
    (stepFiles ⟨update_codes ([] ++ parseNat subEx.codeInput :: [1234]), []⟩
        tsEx subEx =
      (Outcome.success,
       ⟨update_codes ([] ++ [1234]),
        [] ++ logLine tsEx (parseNat subEx.codeInput) subEx.name subEx.roll⟩) ∧
    parseNat subEx.codeInput ∈ [] ++ [1234] ∧
    (stepFiles ⟨update_codes ([] ++ [1234]),
        [] ++ logLine tsEx (parseNat subEx.codeInput) subEx.name subEx.roll⟩
      tsEx subEx).1 = Outcome.success) :=
  ⟨by decide,
   claim_C10 [] [1234] [] tsEx tsEx subEx (by decide) (by decide) (by decide)
     (by decide) (by decide)⟩

end CertApp
